import Mathlib

/-!
Shallow embedding of the chamber admission scheduler (src/program.py).

The Python program coordinates visitor threads of three kinds, S (Student),
A (Admin), O (Online), over one shared chamber guarded by a single lock and
one condition variable per kind.  Every access to the shared ChamberState
happens inside a lock-protected region, so the program is modelled as a
labelled transition system whose steps are exactly those atomic regions:
registration, admission (the final iteration of the wait loop) and
departure.

The departure regions of the code are broken: while still holding the
non-reentrant chamber.lock they execute with chamber.cond[t] for every
kind t with waiting[t] > 0, and entering that context manager re-acquires
the same lock, so the departing thread blocks forever before the first
notify_all whenever any kind is waiting.  The departure step functions
below record this in their blocked field.  The step relation itself keeps
only the state mutation and the log of a departure and lets other regions
continue afterwards; this over-approximates the set of lock-free states a
real run can reach (it only adds states), so the safety invariants proved
over it hold for the program.  The parsing front end (read_meeting_info)
and the driver (run_from_file) are modelled as pure functions.
-/

/-- Visitor kinds, the values of the Python vtype strings S, A, O. -/
inductive VKind
  | S
  | A
  | O
deriving DecidableEq, Repr

/-- One entry of the arrival queue: the tuple (index, name, vtype) that the
Python code appends to chamber.entry_order. -/
structure Entry where
  idx : Nat
  name : String
  vtype : VKind
deriving DecidableEq, Repr

/-- The shared mutable state of class ChamberState: capacity K, the current
occupying type, the occupant count, the per-kind waiting counters and the
arrival queue entry_order.  The log path and lock objects are not data. -/
structure ChamberState where
  K : Int
  current_type : Option VKind
  count : Int
  waiting : VKind → Int
  entry_order : List Entry

/-- Pointwise update of the waiting map, modelling waiting[vtype] += d. -/
def updWaiting (w : VKind → Int) (k : VKind) (d : Int) : VKind → Int :=
  fun k' => if k' = k then w k' + d else w k'

/-- ChamberState.remove_from_queue_by_index: scan entry_order from the left,
delete the first tuple whose index equals the argument and return true,
or return false leaving the queue unchanged. -/
def remove_from_queue_by_index (index : Nat) : List Entry → List Entry × Bool
  | [] => ([], false)
  | e :: rest =>
      if e.idx = index then (rest, true)
      else
        let r := remove_from_queue_by_index index rest
        (e :: r.1, r.2)

/-- The wait-loop predicate of the S/A branch of visitor: from an empty
chamber only the kind at the front of entry_order may start, and a running
same-kind session may be joined while count < K. -/
def canEnterBatch (c : ChamberState) (vtype : VKind) : Bool :=
  match c.current_type with
  | none =>
      match c.entry_order with
      | [] => false
      | f :: _ => decide (f.vtype = vtype)
  | some t => decide (t = vtype) && decide (c.count < c.K)

/-- The wait-loop predicate of the O branch of visitor: the chamber must be
empty and the front of entry_order must be of kind O. -/
def canEnterOnline (c : ChamberState) : Bool :=
  match c.current_type with
  | none =>
      match c.entry_order with
      | [] => false
      | f :: _ => decide (f.vtype = VKind.O)
  | some _ => false

/-- Log events emitted by the scheduler, with the payloads the Python log
lines carry (name, kind, and the count printed after the update). -/
inductive Event
  | arrived (name : String) (k : VKind)
  | entered (name : String) (k : VKind) (cnt : Int)
  | left (name : String) (k : VKind) (cnt : Int)
  | started (name : String)
  | ended (name : String)
deriving DecidableEq, Repr

/-- The registration region of visitor: increment waiting[vtype], append the
record to entry_order, log ARRIVED. -/
def registerStep (c : ChamberState) (e : Entry) : ChamberState × Event :=
  ({ c with
      waiting := updWaiting c.waiting e.vtype 1,
      entry_order := c.entry_order ++ [e] },
   Event.arrived e.name e.vtype)

/-- The admission region of the S/A branch: count += 1, current_type :=
vtype, remove the own record from the queue, waiting[vtype] -= 1, log
ENTERED with the new count. -/
def enterBatchStep (c : ChamberState) (e : Entry) : ChamberState × Event :=
  ({ c with
      count := c.count + 1,
      current_type := some e.vtype,
      entry_order := (remove_from_queue_by_index e.idx c.entry_order).1,
      waiting := updWaiting c.waiting e.vtype (-1) },
   Event.entered e.name e.vtype (c.count + 1))

/-- The admission region of the O branch: count := 1, current_type := O,
remove the own record, waiting[O] -= 1, log STARTED. -/
def enterOnlineStep (c : ChamberState) (e : Entry) : ChamberState × Event :=
  ({ c with
      count := 1,
      current_type := some VKind.O,
      entry_order := (remove_from_queue_by_index e.idx c.entry_order).1,
      waiting := updWaiting c.waiting VKind.O (-1) },
   Event.started e.name)

/-- Result of a departure region: the new chamber state, the log event,
and whether the departing thread then deadlocks.  The loop over the kinds
with a positive waiting counter enters with chamber.cond[t], which
re-acquires the already-held non-reentrant chamber lock, so the thread
blocks forever before the first notify_all whenever such a kind exists;
blocked records exactly that. -/
structure DepartResult where
  chamber : ChamberState
  event : Event
  blocked : Bool

/-- The kinds the departure loop attempts to notify: the Python loop over
(O, S, A) keeps the kinds with waiting[t] > 0.  The attempt never reaches
notify_all: entering with chamber.cond[t] blocks forever on the
already-held lock at the first such kind. -/
def kindsWithWaiting (c : ChamberState) : List VKind :=
  [VKind.O, VKind.S, VKind.A].filter (fun t => decide (0 < c.waiting t))

/-- The departure region of the S/A branch: count -= 1, log LEFT with the
new count; when the count reaches 0, reset current_type and run the notify
loop, which deadlocks (blocked = true) exactly when some kind has a
positive waiting counter, because with chamber.cond[t] re-acquires the
held lock before notify_all can run. -/
def departBatchStep (c : ChamberState) (name : String) (vtype : VKind) :
    DepartResult :=
  let c1 : ChamberState := { c with count := c.count - 1 }
  if c1.count = 0 then
    let c2 : ChamberState := { c1 with current_type := none }
    ⟨c2, Event.left name vtype c1.count, decide (kindsWithWaiting c2 ≠ [])⟩
  else
    ⟨c1, Event.left name vtype c1.count, false⟩

/-- The departure region of the O branch: count := 0, current_type := none,
log ENDED, then the same notify loop, which deadlocks (blocked = true)
exactly when some kind has a positive waiting counter. -/
def departOnlineStep (c : ChamberState) (name : String) : DepartResult :=
  let c1 : ChamberState := { c with count := 0, current_type := none }
  ⟨c1, Event.ended name, decide (kindsWithWaiting c1 ≠ [])⟩

/-- Global system state: the shared chamber plus the bookkeeping of where
every visitor currently is (not yet spawned and registered, admitted and
inside, or finished) and the log so far. -/
structure Sys where
  chamber : ChamberState
  pending : List Entry
  inside : List Entry
  finished : List Entry
  events : List Event

/-- Successor after a registration region runs for the next pending
visitor. -/
def regSucc (s : Sys) (e : Entry) (rest : List Entry) : Sys :=
  { s with
      pending := rest,
      chamber := (registerStep s.chamber e).1,
      events := s.events ++ [(registerStep s.chamber e).2] }

/-- Successor after the admission region of an S/A visitor runs. -/
def enterBatchSucc (s : Sys) (e : Entry) : Sys :=
  { s with
      chamber := (enterBatchStep s.chamber e).1,
      inside := s.inside ++ [e],
      events := s.events ++ [(enterBatchStep s.chamber e).2] }

/-- Successor after the admission region of an O visitor runs. -/
def enterOnlineSucc (s : Sys) (e : Entry) : Sys :=
  { s with
      chamber := (enterOnlineStep s.chamber e).1,
      inside := s.inside ++ [e],
      events := s.events ++ [(enterOnlineStep s.chamber e).2] }

/-- Successor after the departure region of an S/A visitor runs. -/
def departBatchSucc (s : Sys) (e : Entry) (l1 l2 : List Entry) : Sys :=
  { s with
      chamber := (departBatchStep s.chamber e.name e.vtype).chamber,
      inside := l1 ++ l2,
      finished := s.finished ++ [e],
      events := s.events ++ [(departBatchStep s.chamber e.name e.vtype).event] }

/-- Successor after the departure region of an O visitor runs. -/
def departOnlineSucc (s : Sys) (e : Entry) (l1 l2 : List Entry) : Sys :=
  { s with
      chamber := (departOnlineStep s.chamber e.name).chamber,
      inside := l1 ++ l2,
      finished := s.finished ++ [e],
      events := s.events ++ [(departOnlineStep s.chamber e.name).event] }

/-- One atomic lock-protected region of the program.  Registration happens
in spawn order (the driver staggers thread starts); an admission step is the
final iteration of the wait loop of a visitor whose predicate holds; a
departure step keeps the state mutation and the log of the departure
region of a visitor currently inside.  When that region would deadlock in
its notify loop (see departBatchStep and departOnlineStep), the relation
still lets other regions continue, over-approximating the lock-free states
a real run can reach; the safety invariants proved over the relation
therefore hold for the program. -/
inductive Step : Sys → Sys → Prop
  | register (s : Sys) (e : Entry) (rest : List Entry)
      (hp : s.pending = e :: rest) :
      Step s (regSucc s e rest)
  | enterBatch (s : Sys) (e : Entry)
      (hq : e ∈ s.chamber.entry_order)
      (hk : e.vtype = VKind.S ∨ e.vtype = VKind.A)
      (hg : canEnterBatch s.chamber e.vtype = true) :
      Step s (enterBatchSucc s e)
  | enterOnline (s : Sys) (e : Entry)
      (hq : e ∈ s.chamber.entry_order)
      (hk : e.vtype = VKind.O)
      (hg : canEnterOnline s.chamber = true) :
      Step s (enterOnlineSucc s e)
  | departBatch (s : Sys) (e : Entry) (l1 l2 : List Entry)
      (hin : s.inside = l1 ++ e :: l2)
      (hk : e.vtype = VKind.S ∨ e.vtype = VKind.A) :
      Step s (departBatchSucc s e l1 l2)
  | departOnline (s : Sys) (e : Entry) (l1 l2 : List Entry)
      (hin : s.inside = l1 ++ e :: l2)
      (hk : e.vtype = VKind.O) :
      Step s (departOnlineSucc s e l1 l2)

/-- The visitor records the driver creates: enumerate(seq, start=i). -/
def mkEntriesFrom : Nat → List (String × VKind) → List Entry
  | _, [] => []
  | i, (n, k) :: rest => ⟨i, n, k⟩ :: mkEntriesFrom (i + 1) rest

/-- The fresh chamber built by ChamberState.__init__. -/
def initChamber (K : Int) : ChamberState :=
  { K := K
    current_type := none
    count := 0
    waiting := fun _ => 0
    entry_order := [] }

/-- Initial system state of a run with capacity K and visitor list vs. -/
def initSys (K : Int) (vs : List (String × VKind)) : Sys :=
  { chamber := initChamber K
    pending := mkEntriesFrom 1 vs
    inside := []
    finished := []
    events := [] }

/-- States reachable from the initial state by atomic regions. -/
def Reachable (K : Int) (vs : List (String × VKind)) (s : Sys) : Prop :=
  Relation.ReflTransGen Step (initSys K vs) s

/-- Events counted as admissions: ENTERED (batch) and STARTED (online). -/
def isAdmitEvent : Event → Bool
  | Event.entered _ _ _ => true
  | Event.started _ => true
  | _ => false

/-- Events counted as departures: LEFT (batch) and ENDED (online). -/
def isDepartEvent : Event → Bool
  | Event.left _ _ _ => true
  | Event.ended _ => true
  | _ => false

/-- Number of entries of a given kind in a queue. -/
def kindCount (l : List Entry) (k : VKind) : Nat :=
  (l.filter (fun e => decide (e.vtype = k))).length

/-- All visitor records of a system state, over the four regions. -/
def allEntries (s : Sys) : List Entry :=
  s.chamber.entry_order ++ s.inside ++ s.finished ++ s.pending

/-- Termination measure: every atomic region strictly decreases it. -/
def sysMeasure (s : Sys) : Nat :=
  3 * s.pending.length + 2 * s.chamber.entry_order.length + s.inside.length

/-- Membership test of read_meeting_info: vtype in (S, A, O). -/
def kindOfLetter (t : String) : Option VKind :=
  if t = "S" then some VKind.S
  else if t = "A" then some VKind.A
  else if t = "O" then some VKind.O
  else none

/-- Whitespace chunks of a character list, cut at every whitespace
character; chunks may be empty.  Together with the non-empty filter below
this is the Python s.split(). -/
def wsChunks (l : List Char) : List (List Char) :=
  l.foldr
    (fun c acc =>
      if c.isWhitespace then [] :: acc
      else
        match acc with
        | [] => [[c]]
        | w :: ws => (c :: w) :: ws)
    []

/-- Python s.split(): whitespace-separated fields, empties dropped. -/
def pySplit (l : List Char) : List (List Char) :=
  (wsChunks l).filter (fun w => decide (w ≠ []))

/-- Python ln.strip(): drop leading and trailing whitespace characters. -/
def pyStrip (l : List Char) : List Char :=
  ((l.dropWhile Char.isWhitespace).reverse.dropWhile Char.isWhitespace).reverse

/-- Python t.upper(): uppercase every character. -/
def pyUpper (t : String) : String :=
  String.mk (t.data.map Char.toUpper)

/-- Python s.startswith of the hash sign on a character list. -/
def startsWithHash (l : List Char) : Bool :=
  match l with
  | c :: _ => c == '#'
  | [] => false

/-- The one-character string holding the last character of t, the value of
the Python expression t[-1] (empty input gives the empty string; the parser
never applies it to an empty token). -/
def lastCharStr (t : String) : String :=
  match t.data.getLast? with
  | some c => String.mk [c]
  | none => ""

/-- Kind-token handling of read_meeting_info: uppercase the token, test it
against S, A, O, fall back to its last character, and raise ValueError when
both tests fail. -/
def parseKind (tok : String) : Except String VKind :=
  let up := pyUpper tok
  match kindOfLetter up with
  | some k => Except.ok k
  | none =>
      match kindOfLetter (lastCharStr up) with
      | some k => Except.ok k
      | none => Except.error "Invalid type in line"

/-- The whitespace-separated fields of a stripped line, the Python
parts = s.split(). -/
def lineParts (ln : String) : List String :=
  (pySplit (pyStrip ln.data)).map String.mk

/-- Per-line behaviour of the read_meeting_info loop: blank lines and lines
starting with the hash sign produce nothing, lines with at least two fields
are parsed into (name, kind, delay 0.05), all other lines are skipped. -/
def parseLine (ln : String) : Except String (Option (String × VKind × ℚ)) :=
  let s := pyStrip ln.data
  if s = [] then Except.ok none
  else if startsWithHash s then Except.ok none
  else
    match lineParts ln with
    | name :: tok :: _ =>
        match parseKind tok with
        | Except.ok k => Except.ok (some (name, k, 5 / 100))
        | Except.error e => Except.error e
    | _ => Except.ok none

/-- read_meeting_info over the list of lines of the file: collect the parsed
items in order, propagating the first ValueError. -/
def read_meeting_info : List String → Except String (List (String × VKind × ℚ))
  | [] => Except.ok []
  | ln :: rest =>
      match parseLine ln with
      | Except.error e => Except.error e
      | Except.ok none => read_meeting_info rest
      | Except.ok (some it) =>
          match read_meeting_info rest with
          | Except.error e => Except.error e
          | Except.ok items => Except.ok (it :: items)

/-- run_from_file: build the chamber with the given K (the code performs no
validation of K), parse the file, and spawn one visitor task per item with
indices from enumerate(seq, start=1).  The result returns the accepted K and
the spawned visitor records. -/
def run_from_file (K : Int) (lines : List String) :
    Except String (Int × List Entry) :=
  match read_meeting_info lines with
  | Except.error e => Except.error e
  | Except.ok items =>
      Except.ok (K, mkEntriesFrom 1 (items.map fun it => (it.1, it.2.1)))

/-- State invariant holding at every lock-free instant of a run: the count
equals the number of visitors inside, all visitors inside share the
occupying kind, a non-empty occupying kind means the chamber is inhabited,
batch sessions are capped by K, online sessions hold exactly one visitor,
the waiting counters agree with the queue, and the log event counts agree
with the region sizes. -/
structure SchedInv (s : Sys) : Prop where
  count_inside : s.chamber.count = (s.inside.length : Int)
  inside_kind : ∀ e ∈ s.inside, s.chamber.current_type = some e.vtype
  current_inside : ∀ k, s.chamber.current_type = some k → s.inside ≠ []
  batch_cap :
    (s.chamber.current_type = some VKind.S ∨
      s.chamber.current_type = some VKind.A) →
      s.chamber.count ≤ s.chamber.K
  online_one : s.chamber.current_type = some VKind.O → s.chamber.count = 1
  waiting_eq : ∀ k,
    s.chamber.waiting k = (kindCount s.chamber.entry_order k : Int)
  ev_adm : (s.events.filter isAdmitEvent).length =
    s.inside.length + s.finished.length
  ev_dep : (s.events.filter isDepartEvent).length = s.finished.length

/-- Full invariant, relative to the configured capacity and input list:
the state invariant, preservation of the configured K, and the fact that
the records in the four regions are the spawned records. -/
def FullInv (K : Int) (vs : List (String × VKind)) (s : Sys) : Prop :=
  SchedInv s ∧ s.chamber.K = K ∧ (allEntries s).Perm (mkEntriesFrom 1 vs)

/-- The admissibility condition claimed by the specification for a batch
visitor (C1 reading): with an empty chamber the own record must itself be
the front entry of the ledger (so its kind trivially matches the front
kind); with a same-kind session open and count < K admission is
unconditional. -/
def claimedAdmissibleBatch (c : ChamberState) (e : Entry) : Prop :=
  (c.current_type = none ∧ c.entry_order.head? = some e) ∨
  (c.current_type = some e.vtype ∧ c.count < c.K)

/-- The admissibility condition claimed by the specification for an Online
visitor: empty chamber and the own record is the front and of kind O. -/
def claimedAdmissibleOnline (c : ChamberState) (e : Entry) : Prop :=
  c.current_type = none ∧ c.entry_order.head? = some e ∧
    e.vtype = VKind.O

/-- The admissibility condition the code actually implements for a batch
visitor: with an empty chamber only the KIND of the front entry is
compared; the admitted record need not be the front itself. -/
def amendedAdmissibleBatch (c : ChamberState) (k : VKind) : Prop :=
  (c.current_type = none ∧
    ∃ f tl, c.entry_order = f :: tl ∧ f.vtype = k) ∨
  (c.current_type = some k ∧ c.count < c.K)

/-- The admissibility condition the code actually implements for an Online
visitor: empty chamber and a front entry of kind O. -/
def amendedAdmissibleOnline (c : ChamberState) : Prop :=
  c.current_type = none ∧
    ∃ f tl, c.entry_order = f :: tl ∧ f.vtype = VKind.O

/-- Chamber with two queued Students; the second is not the front. -/
def cexChamber : ChamberState :=
  { K := 2
    current_type := none
    count := 0
    waiting := fun k => if k = VKind.S then 2 else 0
    entry_order := [⟨1, "ann", VKind.S⟩, ⟨2, "bob", VKind.S⟩] }

/-- Chamber with two queued Online visitors; the second is not the front. -/
def cexChamberO : ChamberState :=
  { K := 2
    current_type := none
    count := 0
    waiting := fun k => if k = VKind.O then 2 else 0
    entry_order := [⟨1, "ann", VKind.O⟩, ⟨2, "bob", VKind.O⟩] }

/-- System state wrapping cexChamber, to exhibit the admission step. -/
def cexSys : Sys :=
  { chamber := cexChamber
    pending := []
    inside := []
    finished := []
    events := [] }

/-- Concrete chamber used to evaluate the departure postconditions. -/
def wChamber6 : ChamberState :=
  { K := 3
    current_type := some VKind.S
    count := 1
    waiting := fun k => if k = VKind.A then 1 else 0
    entry_order := [⟨2, "bea", VKind.A⟩] }

/-- The single visitor of the concrete full run with capacity 1. -/
def wEntry : Entry := ⟨1, "ann", VKind.S⟩

def wSys0 : Sys := initSys 1 [("ann", VKind.S)]

def wSys1 : Sys := regSucc wSys0 wEntry []

def wSys2 : Sys := enterBatchSucc wSys1 wEntry

def wSys3 : Sys := departBatchSucc wSys2 wEntry [] []

/-- The single visitor of the concrete full run with capacity 0. -/
def uEntry : Entry := ⟨1, "amy", VKind.S⟩

def uSys0 : Sys := initSys 0 [("amy", VKind.S)]

def uSys1 : Sys := regSucc uSys0 uEntry []

def uSys2 : Sys := enterBatchSucc uSys1 uEntry

def uSys3 : Sys := departBatchSucc uSys2 uEntry [] []

/-- Concrete chamber with one Student inside and no waiting visitor: the
only situation in which a departure completes, and then there is nobody to
wake. -/
def wChamber6b : ChamberState :=
  { K := 3
    current_type := some VKind.S
    count := 1
    waiting := fun _ => 0
    entry_order := [] }

/-- The two Students of the deadlocking run with capacity 1. -/
def dEntry1 : Entry := ⟨1, "sam", VKind.S⟩

def dEntry2 : Entry := ⟨2, "tom", VKind.S⟩

def dSys0 : Sys := initSys 1 [("sam", VKind.S), ("tom", VKind.S)]

def dSys1 : Sys := regSucc dSys0 dEntry1 [dEntry2]

def dSys2 : Sys := regSucc dSys1 dEntry2 []

def dSys3 : Sys := enterBatchSucc dSys2 dEntry1

/-! ### Helper lemmas on queue removal -/

/-- Removal when no entry carries the index: the queue is unchanged and the
result flag is false. -/
theorem remove_of_not_found (index : Nat) :
    ∀ l : List Entry, (∀ x ∈ l, x.idx ≠ index) →
      remove_from_queue_by_index index l = (l, false) := by
  intro l
  induction l with
  | nil => intro _; rfl
  | cons e rest ih =>
      intro h
      have he : e.idx ≠ index := h e (List.mem_cons_self e rest)
      have hr : ∀ x ∈ rest, x.idx ≠ index := by
        intro x hx; exact h x (List.mem_cons_of_mem e hx)
      simp [remove_from_queue_by_index, he, ih hr]

/-- Removal at the first entry carrying the index: that entry is deleted,
the relative order of the rest is preserved, the flag is true. -/
theorem remove_of_found (index : Nat) :
    ∀ (l1 : List Entry) (e : Entry) (l2 : List Entry),
      e.idx = index → (∀ x ∈ l1, x.idx ≠ index) →
      remove_from_queue_by_index index (l1 ++ e :: l2) = (l1 ++ l2, true) := by
  intro l1
  induction l1 with
  | nil =>
      intro e l2 he _
      simp [remove_from_queue_by_index, he]
  | cons a rest ih =>
      intro e l2 he h
      have ha : a.idx ≠ index := h a (List.mem_cons_self a rest)
      have hr : ∀ x ∈ rest, x.idx ≠ index := by
        intro x hx; exact h x (List.mem_cons_of_mem a hx)
      simp [remove_from_queue_by_index, ha, ih e l2 he hr]

/-- Removal of an index present in the queue shortens it by one. -/
theorem remove_length_of_found (index : Nat) :
    ∀ l : List Entry, (∃ x ∈ l, x.idx = index) →
      (remove_from_queue_by_index index l).1.length + 1 = l.length := by
  intro l
  induction l with
  | nil => rintro ⟨x, hx, _⟩; cases hx
  | cons e rest ih =>
      rintro ⟨x, hx, hxi⟩
      by_cases he : e.idx = index
      · simp [remove_from_queue_by_index, he]
      · rcases List.mem_cons.mp hx with h | h
        · exact absurd (h ▸ hxi) he
        · have := ih ⟨x, h, hxi⟩
          simp [remove_from_queue_by_index, he]
          omega

/-! ### Helper lemmas on kind counting -/

theorem kindCount_append (l1 l2 : List Entry) (k : VKind) :
    kindCount (l1 ++ l2) k = kindCount l1 k + kindCount l2 k := by
  simp [kindCount, List.filter_append]

theorem kindCount_cons (e : Entry) (l : List Entry) (k : VKind) :
    kindCount (e :: l) k =
      (if e.vtype = k then 1 else 0) + kindCount l k := by
  by_cases h : e.vtype = k
  · simp [kindCount, h]
    omega
  · simp [kindCount, h]

theorem kindCount_singleton (e : Entry) (k : VKind) :
    kindCount [e] k = if e.vtype = k then 1 else 0 := by
  by_cases h : e.vtype = k <;> simp [kindCount, h]

/-! ### Characterization of the wait-loop predicates -/

theorem canEnterBatch_iff (c : ChamberState) (k : VKind) :
    canEnterBatch c k = true ↔
      (c.current_type = none ∧
        ∃ f tl, c.entry_order = f :: tl ∧ f.vtype = k) ∨
      (c.current_type = some k ∧ c.count < c.K) := by
  obtain ⟨K0, ct, cnt, w, q⟩ := c
  rcases ct with _ | t
  · rcases q with _ | ⟨f, tl⟩
    · simp [canEnterBatch]
    · constructor
      · intro h
        have hfk : f.vtype = k := by simpa [canEnterBatch] using h
        exact Or.inl ⟨rfl, f, tl, rfl, hfk⟩
      · rintro (⟨-, f1, tl1, heq, hk⟩ | ⟨himp, -⟩)
        · cases heq
          simpa [canEnterBatch] using hk
        · cases himp
  · constructor
    · intro h
      have h' : t = k ∧ cnt < K0 := by simpa [canEnterBatch] using h
      exact Or.inr ⟨by rw [h'.1], h'.2⟩
    · rintro (⟨himp, -⟩ | ⟨heq, hlt⟩)
      · cases himp
      · injection heq with heq
        simp [canEnterBatch, heq, hlt]

theorem canEnterOnline_iff (c : ChamberState) :
    canEnterOnline c = true ↔
      c.current_type = none ∧
        ∃ f tl, c.entry_order = f :: tl ∧ f.vtype = VKind.O := by
  obtain ⟨K0, ct, cnt, w, q⟩ := c
  rcases ct with _ | t
  · rcases q with _ | ⟨f, tl⟩
    · simp [canEnterOnline]
    · constructor
      · intro h
        have hfk : f.vtype = VKind.O := by simpa [canEnterOnline] using h
        exact ⟨rfl, f, tl, rfl, hfk⟩
      · rintro ⟨-, f1, tl1, heq, hk⟩
        cases heq
        simpa [canEnterOnline] using hk
  · simp [canEnterOnline]

/-! ### Helper lemmas on the spawned records -/

theorem mkEntriesFrom_lb :
    ∀ (vs : List (String × VKind)) (i : Nat) (e : Entry),
      e ∈ mkEntriesFrom i vs → i ≤ e.idx := by
  intro vs
  induction vs with
  | nil => intro i e h; cases h
  | cons p rest ih =>
      intro i e h
      rcases List.mem_cons.mp h with h | h
      · subst h; exact le_refl _
      · have := ih (i + 1) e h; omega

theorem mkEntriesFrom_nodup :
    ∀ (vs : List (String × VKind)) (i : Nat),
      ((mkEntriesFrom i vs).map Entry.idx).Nodup := by
  intro vs
  induction vs with
  | nil => intro i; simp [mkEntriesFrom]
  | cons p rest ih =>
      intro i
      simp only [mkEntriesFrom, List.map_cons, List.nodup_cons]
      refine ⟨?_, ih (i + 1)⟩
      intro hmem
      rcases List.mem_map.mp hmem with ⟨e, he, hei⟩
      have := mkEntriesFrom_lb rest (i + 1) e he
      omega

theorem mkEntriesFrom_length :
    ∀ (vs : List (String × VKind)) (i : Nat),
      (mkEntriesFrom i vs).length = vs.length := by
  intro vs
  induction vs with
  | nil => intro i; rfl
  | cons p rest ih => intro i; simp [mkEntriesFrom, ih]

/-! ### The inductive invariant of the scheduler -/

theorem SchedInv.inside_nil_of_none {s : Sys} (h : SchedInv s)
    (hn : s.chamber.current_type = none) : s.inside = [] := by
  cases hi : s.inside with
  | nil => rfl
  | cons e tl =>
      have := h.inside_kind e (by rw [hi]; exact List.mem_cons_self e tl)
      rw [hn] at this
      cases this

theorem SchedInv.count_nonneg {s : Sys} (h : SchedInv s) : 0 ≤ s.chamber.count := by
  rw [h.count_inside]
  exact_mod_cast Nat.zero_le _

theorem fullInv_init (K : Int) (vs : List (String × VKind)) :
    FullInv K vs (initSys K vs) := by
  refine ⟨⟨?_, ?_, ?_, ?_, ?_, ?_, ?_, ?_⟩, rfl, ?_⟩
  · rfl
  · intro e he; cases he
  · intro k hk; cases hk
  · intro h; rcases h with h | h <;> cases h
  · intro h; cases h
  · intro k; rfl
  · rfl
  · rfl
  · simp [allEntries, initSys, initChamber]

/-! ### Index uniqueness helpers -/

theorem fullInv_idx_nodup {K : Int} {vs : List (String × VKind)} {s : Sys}
    (h : FullInv K vs s) : ((allEntries s).map Entry.idx).Nodup := by
  have hperm := (h.2.2).map Entry.idx
  exact (hperm.nodup_iff).mpr (mkEntriesFrom_nodup vs 1)

theorem nodup_map_append_left {α β : Type} (f : α → β) (l1 l2 : List α)
    (h : ((l1 ++ l2).map f).Nodup) : (l1.map f).Nodup := by
  rw [List.map_append] at h
  exact (List.nodup_append.mp h).1

theorem nodup_map_append_disjoint {α β : Type} (f : α → β) (l1 l2 : List α)
    (h : ((l1 ++ l2).map f).Nodup) {a b : α}
    (ha : a ∈ l1) (hb : b ∈ l2) (hab : f a = f b) : False := by
  rw [List.map_append] at h
  have hd := (List.nodup_append.mp h).2.2
  exact hd (List.mem_map_of_mem f ha) (hab ▸ List.mem_map_of_mem f hb)

/-- Split the queue around a member entry whose index appears nowhere else,
and compute the removal result. -/
theorem queue_split_remove (q : List Entry) (e : Entry)
    (hq : e ∈ q) (hn : (q.map Entry.idx).Nodup) :
    ∃ l1 l2, q = l1 ++ e :: l2 ∧
      remove_from_queue_by_index e.idx q = (l1 ++ l2, true) := by
  obtain ⟨l1, l2, rfl⟩ := List.append_of_mem hq
  refine ⟨l1, l2, rfl, ?_⟩
  refine remove_of_found e.idx l1 e l2 rfl ?_
  intro x hx hxe
  exact nodup_map_append_disjoint Entry.idx l1 (e :: l2) hn hx
    (List.mem_cons_self e l2) hxe

/-! ### Permutation of the record multiset along a step -/

theorem perm_register (q i f r : List Entry) (e : Entry) :
    (q ++ [e] ++ i ++ f ++ r).Perm (q ++ i ++ f ++ (e :: r)) := by
  refine List.perm_iff_count.mpr ?_
  intro a
  by_cases ha : a = e
  · simp [List.count_append, List.count_cons, ha]
    omega
  · simp [List.count_append, List.count_cons, ha]

theorem perm_enter (l1 l2 i f p : List Entry) (e : Entry) :
    (l1 ++ l2 ++ (i ++ [e]) ++ f ++ p).Perm
      (l1 ++ (e :: l2) ++ i ++ f ++ p) := by
  refine List.perm_iff_count.mpr ?_
  intro a
  by_cases ha : a = e
  · simp [List.count_append, List.count_cons, ha]
    omega
  · simp [List.count_append, List.count_cons, ha]

theorem perm_depart (q l1 l2 f p : List Entry) (e : Entry) :
    (q ++ (l1 ++ l2) ++ (f ++ [e]) ++ p).Perm
      (q ++ (l1 ++ (e :: l2)) ++ f ++ p) := by
  refine List.perm_iff_count.mpr ?_
  intro a
  by_cases ha : a = e
  · simp [List.count_append, List.count_cons, ha]
    omega
  · simp [List.count_append, List.count_cons, ha]

/-! ### Projection lemmas for the departure regions -/

theorem departBatchStep_chamber_pos (c : ChamberState) (name : String)
    (vtype : VKind) (hz : c.count - 1 = 0) :
    (departBatchStep c name vtype).chamber =
      { c with count := c.count - 1, current_type := none } := by
  simp [departBatchStep, hz]

theorem departBatchStep_chamber_neg (c : ChamberState) (name : String)
    (vtype : VKind) (hz : ¬ c.count - 1 = 0) :
    (departBatchStep c name vtype).chamber = { c with count := c.count - 1 } := by
  simp [departBatchStep, hz]

theorem departBatchStep_event_eq (c : ChamberState) (name : String)
    (vtype : VKind) :
    (departBatchStep c name vtype).event =
      Event.left name vtype (c.count - 1) := by
  by_cases hz : c.count - 1 = 0 <;> simp [departBatchStep, hz]

/-! ### Preservation of the invariant by each atomic region -/

theorem schedInv_register (s : Sys) (e : Entry) (rest : List Entry)
    (h : SchedInv s) : SchedInv (regSucc s e rest) := by
  refine ⟨?_, ?_, ?_, ?_, ?_, ?_, ?_, ?_⟩
  · simpa [regSucc, registerStep] using h.count_inside
  · intro x hx
    simp only [regSucc, registerStep] at hx ⊢
    exact h.inside_kind x hx
  · intro k hk
    simp only [regSucc, registerStep] at hk ⊢
    exact h.current_inside k hk
  · intro hc
    simp only [regSucc, registerStep] at hc ⊢
    exact h.batch_cap hc
  · intro hc
    simp only [regSucc, registerStep] at hc ⊢
    exact h.online_one hc
  · intro k
    have hw := h.waiting_eq k
    simp only [regSucc, registerStep, updWaiting, kindCount_append,
      kindCount_singleton]
    by_cases hk : k = e.vtype
    · subst hk
      simp [hw]
    · have hek : ¬ e.vtype = k := fun hh => hk hh.symm
      simp [hk, hek, hw]
  · have := h.ev_adm
    simp only [regSucc, registerStep, List.filter_append]
    simp [isAdmitEvent]
    omega
  · have := h.ev_dep
    simp only [regSucc, registerStep, List.filter_append]
    simp [isDepartEvent]
    omega

theorem schedInv_enterBatch (s : Sys) (e : Entry)
    (hq : e ∈ s.chamber.entry_order)
    (hk : e.vtype = VKind.S ∨ e.vtype = VKind.A)
    (hg : canEnterBatch s.chamber e.vtype = true)
    (hK : 1 ≤ s.chamber.K)
    (hn : (s.chamber.entry_order.map Entry.idx).Nodup)
    (h : SchedInv s) : SchedInv (enterBatchSucc s e) := by
  obtain ⟨l1, l2, hsplit, hrem⟩ :=
    queue_split_remove s.chamber.entry_order e hq hn
  have hguard := (canEnterBatch_iff s.chamber e.vtype).mp hg
  refine ⟨?_, ?_, ?_, ?_, ?_, ?_, ?_, ?_⟩
  · have := h.count_inside
    simp only [enterBatchSucc, enterBatchStep]
    simp [this]
  · intro x hx
    simp only [enterBatchSucc, enterBatchStep] at hx ⊢
    rcases List.mem_append.mp hx with hx | hx
    · rcases hguard with ⟨hnone, -⟩ | ⟨hcur, -⟩
      · rw [h.inside_nil_of_none hnone] at hx
        cases hx
      · have hx2 := h.inside_kind x hx
        rw [hcur] at hx2
        injection hx2 with hx2
        rw [hx2]
    · have hxe : x = e := by simpa using hx
      rw [hxe]
  · intro k hk2
    simp [enterBatchSucc]
  · intro hc
    simp only [enterBatchSucc, enterBatchStep] at hc ⊢
    rcases hguard with ⟨hnone, -⟩ | ⟨hcur, hlt⟩
    · have hnil := h.inside_nil_of_none hnone
      have hc0 := h.count_inside
      rw [hnil] at hc0
      simp at hc0
      omega
    · omega
  · intro hc
    simp only [enterBatchSucc, enterBatchStep] at hc
    injection hc with hc
    rcases hk with hk | hk <;> rw [hk] at hc <;> cases hc
  · intro k
    have hw := h.waiting_eq k
    rw [hsplit] at hw
    simp only [enterBatchSucc, enterBatchStep, hrem, updWaiting,
      kindCount_append, kindCount_cons] at hw ⊢
    by_cases hke : k = e.vtype
    · subst hke
      simp at hw ⊢
      omega
    · have hek : ¬ e.vtype = k := fun hh => hke hh.symm
      simp [hke, hek] at hw ⊢
      exact hw
  · have := h.ev_adm
    simp only [enterBatchSucc, enterBatchStep, List.filter_append]
    simp [isAdmitEvent]
    omega
  · have := h.ev_dep
    simp only [enterBatchSucc, enterBatchStep, List.filter_append]
    simp [isDepartEvent]
    omega

theorem schedInv_enterOnline (s : Sys) (e : Entry)
    (hq : e ∈ s.chamber.entry_order)
    (hk : e.vtype = VKind.O)
    (hg : canEnterOnline s.chamber = true)
    (hn : (s.chamber.entry_order.map Entry.idx).Nodup)
    (h : SchedInv s) : SchedInv (enterOnlineSucc s e) := by
  obtain ⟨l1, l2, hsplit, hrem⟩ :=
    queue_split_remove s.chamber.entry_order e hq hn
  obtain ⟨hnone, -⟩ := (canEnterOnline_iff s.chamber).mp hg
  have hnil := h.inside_nil_of_none hnone
  refine ⟨?_, ?_, ?_, ?_, ?_, ?_, ?_, ?_⟩
  · simp only [enterOnlineSucc, enterOnlineStep]
    rw [hnil]
    simp
  · intro x hx
    simp only [enterOnlineSucc, enterOnlineStep] at hx ⊢
    rw [hnil] at hx
    have hxe : x = e := by simpa using hx
    rw [hxe, hk]
  · intro k hk2
    simp [enterOnlineSucc]
  · intro hc
    simp only [enterOnlineSucc, enterOnlineStep] at hc
    rcases hc with hc | hc <;> injection hc with hc <;> cases hc
  · intro hc
    simp [enterOnlineSucc, enterOnlineStep]
  · intro k
    have hw := h.waiting_eq k
    rw [hsplit] at hw
    simp only [enterOnlineSucc, enterOnlineStep, hrem, updWaiting,
      kindCount_append, kindCount_cons] at hw ⊢
    by_cases hke : k = VKind.O
    · subst hke
      rw [hk] at hw
      simp at hw ⊢
      omega
    · have hek : ¬ e.vtype = k := by rw [hk]; exact fun hh => hke hh.symm
      simp [hke, hek] at hw ⊢
      exact hw
  · have := h.ev_adm
    rw [hnil] at this
    simp at this
    simp only [enterOnlineSucc, enterOnlineStep, List.filter_append]
    rw [hnil]
    simp [isAdmitEvent]
    omega
  · have := h.ev_dep
    simp only [enterOnlineSucc, enterOnlineStep, List.filter_append]
    simp [isDepartEvent]
    omega

theorem schedInv_departBatch (s : Sys) (e : Entry) (l1 l2 : List Entry)
    (hin : s.inside = l1 ++ e :: l2)
    (h : SchedInv s) : SchedInv (departBatchSucc s e l1 l2) := by
  have hmem : e ∈ s.inside := by
    rw [hin]; exact List.mem_append_right l1 (List.mem_cons_self e l2)
  have hcur : s.chamber.current_type = some e.vtype := h.inside_kind e hmem
  have hci := h.count_inside
  rw [hin] at hci
  simp at hci
  by_cases hz : s.chamber.count - 1 = 0
  · have hl1 : l1 = [] := List.length_eq_zero.mp (by omega)
    have hl2 : l2 = [] := List.length_eq_zero.mp (by omega)
    refine ⟨?_, ?_, ?_, ?_, ?_, ?_, ?_, ?_⟩
    · simp only [departBatchSucc, departBatchStep_chamber_pos _ _ _ hz]
      rw [hl1, hl2]
      simp
      omega
    · intro x hx
      simp only [departBatchSucc] at hx
      rw [hl1, hl2] at hx
      cases hx
    · intro k hk2
      simp only [departBatchSucc, departBatchStep_chamber_pos _ _ _ hz] at hk2
      cases hk2
    · intro hc
      simp only [departBatchSucc, departBatchStep_chamber_pos _ _ _ hz] at hc
      rcases hc with hc | hc <;> cases hc
    · intro hc
      simp only [departBatchSucc, departBatchStep_chamber_pos _ _ _ hz] at hc
      cases hc
    · intro k
      simp only [departBatchSucc, departBatchStep_chamber_pos _ _ _ hz]
      exact h.waiting_eq k
    · have := h.ev_adm
      rw [hin, hl1, hl2] at this
      simp at this
      simp only [departBatchSucc, departBatchStep_event_eq, List.filter_append]
      rw [hl1, hl2]
      simp [isAdmitEvent]
      omega
    · have := h.ev_dep
      simp only [departBatchSucc, departBatchStep_event_eq, List.filter_append]
      simp [isDepartEvent]
      omega
  · refine ⟨?_, ?_, ?_, ?_, ?_, ?_, ?_, ?_⟩
    · simp only [departBatchSucc, departBatchStep_chamber_neg _ _ _ hz]
      simp
      omega
    · intro x hx
      simp only [departBatchSucc, departBatchStep_chamber_neg _ _ _ hz] at hx ⊢
      have hx2 : x ∈ s.inside := by
        rw [hin]
        rcases List.mem_append.mp hx with hx | hx
        · exact List.mem_append_left _ hx
        · exact List.mem_append_right _ (List.mem_cons_of_mem e hx)
      exact h.inside_kind x hx2
    · intro k hk2
      simp only [departBatchSucc, departBatchStep_chamber_neg _ _ _ hz]
      intro habs
      rcases List.append_eq_nil.mp habs with ⟨ha, hb⟩
      rw [ha, hb] at hci
      simp at hci
      omega
    · intro hc
      simp only [departBatchSucc, departBatchStep_chamber_neg _ _ _ hz] at hc ⊢
      have := h.batch_cap hc
      omega
    · intro hc
      simp only [departBatchSucc, departBatchStep_chamber_neg _ _ _ hz] at hc
      have := h.online_one hc
      omega
    · intro k
      simp only [departBatchSucc, departBatchStep_chamber_neg _ _ _ hz]
      exact h.waiting_eq k
    · have := h.ev_adm
      rw [hin] at this
      simp at this
      simp only [departBatchSucc, departBatchStep_event_eq, List.filter_append]
      simp [isAdmitEvent]
      omega
    · have := h.ev_dep
      simp only [departBatchSucc, departBatchStep_event_eq, List.filter_append]
      simp [isDepartEvent]
      omega

theorem schedInv_departOnline (s : Sys) (e : Entry) (l1 l2 : List Entry)
    (hin : s.inside = l1 ++ e :: l2)
    (hk : e.vtype = VKind.O)
    (h : SchedInv s) : SchedInv (departOnlineSucc s e l1 l2) := by
  have hmem : e ∈ s.inside := by
    rw [hin]; exact List.mem_append_right l1 (List.mem_cons_self e l2)
  have hcur : s.chamber.current_type = some VKind.O := by
    have := h.inside_kind e hmem
    rw [hk] at this
    exact this
  have hone := h.online_one hcur
  have hci := h.count_inside
  rw [hin] at hci
  simp at hci
  have hl1 : l1 = [] := List.length_eq_zero.mp (by omega)
  have hl2 : l2 = [] := List.length_eq_zero.mp (by omega)
  refine ⟨?_, ?_, ?_, ?_, ?_, ?_, ?_, ?_⟩
  · simp only [departOnlineSucc, departOnlineStep]
    rw [hl1, hl2]
    simp
  · intro x hx
    simp only [departOnlineSucc] at hx
    rw [hl1, hl2] at hx
    cases hx
  · intro k hk2
    simp only [departOnlineSucc, departOnlineStep] at hk2
    cases hk2
  · intro hc
    simp only [departOnlineSucc, departOnlineStep] at hc
    rcases hc with hc | hc <;> cases hc
  · intro hc
    simp only [departOnlineSucc, departOnlineStep] at hc
    cases hc
  · intro k
    simp only [departOnlineSucc, departOnlineStep]
    exact h.waiting_eq k
  · have := h.ev_adm
    rw [hin, hl1, hl2] at this
    simp at this
    simp only [departOnlineSucc, departOnlineStep, List.filter_append]
    rw [hl1, hl2]
    simp [isAdmitEvent]
    omega
  · have := h.ev_dep
    simp only [departOnlineSucc, departOnlineStep, List.filter_append]
    simp [isDepartEvent]
    omega

/-! ### The combined step lemma -/

theorem allEntries_queue_nodup (s : Sys)
    (hn : ((allEntries s).map Entry.idx).Nodup) :
    ((s.chamber.entry_order).map Entry.idx).Nodup := by
  have heq : allEntries s =
      ((s.chamber.entry_order ++ s.inside) ++ s.finished) ++ s.pending := rfl
  rw [heq] at hn
  exact nodup_map_append_left Entry.idx _ _
    (nodup_map_append_left Entry.idx _ _
      (nodup_map_append_left Entry.idx _ _ hn))

theorem step_K (s s' : Sys) (hstep : Step s s') :
    s'.chamber.K = s.chamber.K := by
  cases hstep with
  | register e rest hp => simp [regSucc, registerStep]
  | enterBatch e hq hk hg => simp [enterBatchSucc, enterBatchStep]
  | enterOnline e hq hk hg => simp [enterOnlineSucc, enterOnlineStep]
  | departBatch e l1 l2 hin hk =>
      by_cases hz : s.chamber.count - 1 = 0
      · simp [departBatchSucc, departBatchStep_chamber_pos _ _ _ hz]
      · simp [departBatchSucc, departBatchStep_chamber_neg _ _ _ hz]
  | departOnline e l1 l2 hin hk =>
      simp [departOnlineSucc, departOnlineStep]

theorem step_perm (s s' : Sys) (hstep : Step s s')
    (hn : ((allEntries s).map Entry.idx).Nodup) :
    (allEntries s').Perm (allEntries s) := by
  have hnq := allEntries_queue_nodup s hn
  cases hstep with
  | register e rest hp =>
      simp only [allEntries, regSucc, registerStep]
      rw [hp]
      exact perm_register s.chamber.entry_order s.inside s.finished rest e
  | enterBatch e hq hk hg =>
      obtain ⟨l1, l2, hsplit, hrem⟩ :=
        queue_split_remove s.chamber.entry_order e hq hnq
      simp only [allEntries, enterBatchSucc, enterBatchStep, hrem]
      rw [hsplit]
      exact perm_enter l1 l2 s.inside s.finished s.pending e
  | enterOnline e hq hk hg =>
      obtain ⟨l1, l2, hsplit, hrem⟩ :=
        queue_split_remove s.chamber.entry_order e hq hnq
      simp only [allEntries, enterOnlineSucc, enterOnlineStep, hrem]
      rw [hsplit]
      exact perm_enter l1 l2 s.inside s.finished s.pending e
  | departBatch e l1 l2 hin hk =>
      have hqeq : (departBatchStep s.chamber e.name e.vtype).chamber.entry_order
          = s.chamber.entry_order := by
        by_cases hz : s.chamber.count - 1 = 0
        · simp [departBatchStep_chamber_pos _ _ _ hz]
        · simp [departBatchStep_chamber_neg _ _ _ hz]
      simp only [allEntries, departBatchSucc, hqeq]
      rw [hin]
      exact perm_depart s.chamber.entry_order l1 l2 s.finished s.pending e
  | departOnline e l1 l2 hin hk =>
      simp only [allEntries, departOnlineSucc, departOnlineStep]
      rw [hin]
      exact perm_depart s.chamber.entry_order l1 l2 s.finished s.pending e

theorem fullInv_step (K : Int) (vs : List (String × VKind)) (s s' : Sys)
    (hstep : Step s s') (hK : 1 ≤ K) (h : FullInv K vs s) :
    FullInv K vs s' := by
  obtain ⟨hinv, hKeq, hperm⟩ := h
  have hfi : FullInv K vs s := ⟨hinv, hKeq, hperm⟩
  have hn := fullInv_idx_nodup hfi
  have hnq := allEntries_queue_nodup s hn
  have hKs : 1 ≤ s.chamber.K := by rw [hKeq]; exact hK
  refine ⟨?_, ?_, (step_perm s s' hstep hn).trans hperm⟩
  · cases hstep with
    | register e rest hp => exact schedInv_register s e rest hinv
    | enterBatch e hq hk hg =>
        exact schedInv_enterBatch s e hq hk hg hKs hnq hinv
    | enterOnline e hq hk hg =>
        exact schedInv_enterOnline s e hq hk hg hnq hinv
    | departBatch e l1 l2 hin hk =>
        exact schedInv_departBatch s e l1 l2 hin hinv
    | departOnline e l1 l2 hin hk =>
        exact schedInv_departOnline s e l1 l2 hin hk hinv
  · rw [step_K s s' hstep]
    exact hKeq

theorem reach_fullInv (K : Int) (vs : List (String × VKind)) (s : Sys)
    (hK : 1 ≤ K) (hr : Reachable K vs s) : FullInv K vs s := by
  induction hr with
  | refl => exact fullInv_init K vs
  | tail hab hbc ih => exact fullInv_step K vs _ _ hbc hK ih

/-! ### Progress, termination and terminal states -/

theorem no_step_of_empty (s : Sys) (hp : s.pending = [])
    (hq : s.chamber.entry_order = []) (hi : s.inside = []) :
    ∀ s', ¬ Step s s' := by
  intro s' hstep
  cases hstep with
  | register e rest hpe => rw [hp] at hpe; cases hpe
  | enterBatch e hqe hk hg => rw [hq] at hqe; cases hqe
  | enterOnline e hqe hk hg => rw [hq] at hqe; cases hqe
  | departBatch e l1 l2 hin hk => rw [hi] at hin; simp at hin
  | departOnline e l1 l2 hin hk => rw [hi] at hin; simp at hin

theorem progress_step (s : Sys) (h : SchedInv s)
    (hne : ¬ (s.pending = [] ∧ s.chamber.entry_order = [] ∧ s.inside = [])) :
    ∃ s', Step s s' := by
  cases hi : s.inside with
  | cons e tl =>
      have hin : s.inside = [] ++ e :: tl := by rw [hi]; rfl
      cases hv : e.vtype with
      | S => exact ⟨_, Step.departBatch s e [] tl hin (Or.inl hv)⟩
      | A => exact ⟨_, Step.departBatch s e [] tl hin (Or.inr hv)⟩
      | O => exact ⟨_, Step.departOnline s e [] tl hin hv⟩
  | nil =>
      cases hq : s.chamber.entry_order with
      | cons f tl =>
          have hcurr : s.chamber.current_type = none := by
            rcases hc : s.chamber.current_type with _ | k
            · rfl
            · exact absurd hi (h.current_inside k hc)
          have hmem : f ∈ s.chamber.entry_order := by
            rw [hq]; exact List.mem_cons_self f tl
          cases hv : f.vtype with
          | S =>
              refine ⟨_, Step.enterBatch s f hmem (Or.inl hv) ?_⟩
              exact (canEnterBatch_iff s.chamber f.vtype).mpr
                (Or.inl ⟨hcurr, f, tl, hq, rfl⟩)
          | A =>
              refine ⟨_, Step.enterBatch s f hmem (Or.inr hv) ?_⟩
              exact (canEnterBatch_iff s.chamber f.vtype).mpr
                (Or.inl ⟨hcurr, f, tl, hq, rfl⟩)
          | O =>
              refine ⟨_, Step.enterOnline s f hmem hv ?_⟩
              exact (canEnterOnline_iff s.chamber).mpr ⟨hcurr, f, tl, hq, hv⟩
      | nil =>
          cases hp : s.pending with
          | nil => exact absurd ⟨hp, hq, hi⟩ hne
          | cons e rest => exact ⟨_, Step.register s e rest hp⟩

theorem step_measure (s s' : Sys) (hstep : Step s s') :
    sysMeasure s' < sysMeasure s := by
  cases hstep with
  | register e rest hp =>
      simp only [sysMeasure, regSucc, registerStep]
      rw [hp]
      simp
      omega
  | enterBatch e hq hk hg =>
      have hlen := remove_length_of_found e.idx s.chamber.entry_order
        ⟨e, hq, rfl⟩
      simp only [sysMeasure, enterBatchSucc, enterBatchStep]
      simp
      omega
  | enterOnline e hq hk hg =>
      have hlen := remove_length_of_found e.idx s.chamber.entry_order
        ⟨e, hq, rfl⟩
      simp only [sysMeasure, enterOnlineSucc, enterOnlineStep]
      simp
      omega
  | departBatch e l1 l2 hin hk =>
      have hqeq : (departBatchStep s.chamber e.name e.vtype).chamber.entry_order
          = s.chamber.entry_order := by
        by_cases hz : s.chamber.count - 1 = 0
        · simp [departBatchStep_chamber_pos _ _ _ hz]
        · simp [departBatchStep_chamber_neg _ _ _ hz]
      simp only [sysMeasure, departBatchSucc, hqeq]
      rw [hin]
      simp
  | departOnline e l1 l2 hin hk =>
      simp only [sysMeasure, departOnlineSucc, departOnlineStep]
      rw [hin]
      simp

/-! ### The departure deadlock -/

theorem mem_kindsWithWaiting (c : ChamberState) (t : VKind) :
    t ∈ kindsWithWaiting c ↔ 0 < c.waiting t := by
  have hall : t ∈ [VKind.O, VKind.S, VKind.A] := by cases t <;> simp
  simp [kindsWithWaiting, List.mem_filter, hall]

theorem kindsWithWaiting_ne_nil_iff (c : ChamberState) :
    kindsWithWaiting c ≠ [] ↔ ∃ t, 0 < c.waiting t := by
  constructor
  · intro h
    rcases hk : kindsWithWaiting c with _ | ⟨t, ts⟩
    · exact absurd hk h
    · refine ⟨t, ?_⟩
      rw [← mem_kindsWithWaiting c t, hk]
      exact List.mem_cons_self t ts
  · rintro ⟨t, ht⟩ hnil
    have hmem := (mem_kindsWithWaiting c t).mpr ht
    rw [hnil] at hmem
    cases hmem

theorem departBatchStep_blocked_iff (c : ChamberState) (name : String)
    (vtype : VKind) :
    (departBatchStep c name vtype).blocked = true ↔
      (c.count - 1 = 0 ∧ ∃ t, 0 < c.waiting t) := by
  by_cases hz : c.count - 1 = 0
  · have hb : (departBatchStep c name vtype).blocked =
        decide (kindsWithWaiting
          { c with count := c.count - 1, current_type := none } ≠ []) := by
      simp [departBatchStep, hz]
    rw [hb]
    simp only [decide_eq_true_eq]
    rw [kindsWithWaiting_ne_nil_iff]
    simp [hz]
  · have hb : (departBatchStep c name vtype).blocked = false := by
      simp [departBatchStep, hz]
    rw [hb]
    simp [hz]

theorem departOnlineStep_blocked_iff (c : ChamberState) (name : String) :
    (departOnlineStep c name).blocked = true ↔ ∃ t, 0 < c.waiting t := by
  have hb : (departOnlineStep c name).blocked =
      decide (kindsWithWaiting
        { c with count := 0, current_type := none } ≠ []) := rfl
  rw [hb]
  simp only [decide_eq_true_eq]
  rw [kindsWithWaiting_ne_nil_iff]

/-! ### Claim theorems -/

/-- C9: remove_from_queue_by_index removes the first entry whose sequence
index matches, preserving the relative order of the remaining entries and
returning true, and leaves the queue unchanged returning false when no
entry matches. -/
theorem c9_remove_from_queue_spec (index : Nat) (l : List Entry) :
    ((∀ x ∈ l, x.idx ≠ index) →
      remove_from_queue_by_index index l = (l, false)) ∧
    (∀ l1 e l2, l = l1 ++ e :: l2 → e.idx = index →
      (∀ x ∈ l1, x.idx ≠ index) →
      remove_from_queue_by_index index l = (l1 ++ l2, true)) := by
  refine ⟨remove_of_not_found index l, ?_⟩
  intro l1 e l2 hsplit he hfirst
  rw [hsplit]
  exact remove_of_found index l1 e l2 he hfirst

/-- Witness for C9 at a concrete queue: index 2 removes the second entry
and returns true, index 7 is absent so the queue is unchanged. -/
theorem c9_remove_from_queue_spec_witness :
    remove_from_queue_by_index 2
        [⟨1, "ann", VKind.S⟩, ⟨2, "bob", VKind.O⟩] =
      ([⟨1, "ann", VKind.S⟩], true) ∧
    remove_from_queue_by_index 7
        [⟨1, "ann", VKind.S⟩, ⟨2, "bob", VKind.O⟩] =
      ([⟨1, "ann", VKind.S⟩, ⟨2, "bob", VKind.O⟩], false) := by
  constructor
  · exact (c9_remove_from_queue_spec 2
      [⟨1, "ann", VKind.S⟩, ⟨2, "bob", VKind.O⟩]).2
      [⟨1, "ann", VKind.S⟩] ⟨2, "bob", VKind.O⟩ [] rfl rfl (by decide)
  · exact (c9_remove_from_queue_spec 7
      [⟨1, "ann", VKind.S⟩, ⟨2, "bob", VKind.O⟩]).1 (by decide)

/-- C1 counterexample: with an empty chamber and ledger (ann S, bob S) the
wait-loop predicate admits bob even though the record of bob is not the
front of the ledger, and likewise for two queued Online visitors; the
specification text requires the own record to be the front, which fails
here.  The admission step for bob is exhibited explicitly. -/
theorem c1_counterexample :
    canEnterBatch cexChamber VKind.S = true ∧
    ¬ claimedAdmissibleBatch cexChamber ⟨2, "bob", VKind.S⟩ ∧
    canEnterOnline cexChamberO = true ∧
    ¬ claimedAdmissibleOnline cexChamberO ⟨2, "bob", VKind.O⟩ ∧
    Step cexSys (enterBatchSucc cexSys ⟨2, "bob", VKind.S⟩) := by
  refine ⟨by decide, by unfold claimedAdmissibleBatch; decide,
    by decide, by unfold claimedAdmissibleOnline; decide, ?_⟩
  exact Step.enterBatch cexSys ⟨2, "bob", VKind.S⟩ (by decide)
    (Or.inl rfl) (by decide)

/-- C1 amended: for a batch visitor the loop admits exactly when either the
chamber is empty and the KIND of the ledger front equals the visitor kind
(the own record need not be the front), or a same-kind session is open with
count < K; an Online visitor is admitted exactly when the chamber is empty
and the ledger front is of kind O (again not necessarily the own
record). -/
theorem c1_entry_admissibility (c : ChamberState) (k : VKind)
    (_hk : k = VKind.S ∨ k = VKind.A) :
    (canEnterBatch c k = true ↔ amendedAdmissibleBatch c k) ∧
    (canEnterOnline c = true ↔ amendedAdmissibleOnline c) :=
  ⟨canEnterBatch_iff c k, canEnterOnline_iff c⟩

/-- Witness for C1 at the concrete chamber of the counterexample. -/
theorem c1_entry_admissibility_witness :
    (VKind.S = VKind.S ∨ VKind.S = VKind.A) ∧
    ((canEnterBatch cexChamber VKind.S = true ↔
        amendedAdmissibleBatch cexChamber VKind.S) ∧
      (canEnterOnline cexChamber = true ↔
        amendedAdmissibleOnline cexChamber)) :=
  ⟨Or.inl rfl, c1_entry_admissibility cexChamber VKind.S (Or.inl rfl)⟩

/-- C2: in every reachable lock-free state of a run with capacity K at
least 1, a batch occupying kind implies 0 <= count <= K, an Online
occupying kind implies count = 1, an empty chamber implies count = 0, and
all visitors holding the chamber are of one kind. -/
theorem c2_occupancy_invariant (K : Int) (vs : List (String × VKind))
    (s : Sys) (hK : 1 ≤ K) (hr : Reachable K vs s) :
    ((s.chamber.current_type = some VKind.S ∨
        s.chamber.current_type = some VKind.A) →
      0 ≤ s.chamber.count ∧ s.chamber.count ≤ K) ∧
    (s.chamber.current_type = some VKind.O → s.chamber.count = 1) ∧
    (s.chamber.current_type = none → s.chamber.count = 0) ∧
    (∀ e1, e1 ∈ s.inside → ∀ e2, e2 ∈ s.inside → e1.vtype = e2.vtype) := by
  obtain ⟨hinv, hKeq, -⟩ := reach_fullInv K vs s hK hr
  refine ⟨?_, hinv.online_one, ?_, ?_⟩
  · intro hc
    exact ⟨hinv.count_nonneg, by rw [← hKeq]; exact hinv.batch_cap hc⟩
  · intro hc
    rw [hinv.count_inside, hinv.inside_nil_of_none hc]
    rfl
  · intro e1 h1 e2 h2
    have k1 := hinv.inside_kind e1 h1
    have k2 := hinv.inside_kind e2 h2
    rw [k1] at k2
    exact Option.some.inj k2

/-- Witness for C2 at the initial state of a run with K = 1. -/
theorem c2_occupancy_invariant_witness :
    (1 : Int) ≤ 1 ∧
    (((initSys 1 []).chamber.current_type = some VKind.S ∨
        (initSys 1 []).chamber.current_type = some VKind.A) →
      0 ≤ (initSys 1 []).chamber.count ∧ (initSys 1 []).chamber.count ≤ 1) ∧
    ((initSys 1 []).chamber.current_type = some VKind.O →
      (initSys 1 []).chamber.count = 1) ∧
    ((initSys 1 []).chamber.current_type = none →
      (initSys 1 []).chamber.count = 0) ∧
    (∀ e1, e1 ∈ (initSys 1 []).inside → ∀ e2, e2 ∈ (initSys 1 []).inside →
      e1.vtype = e2.vtype) :=
  ⟨by norm_num,
    c2_occupancy_invariant 1 [] (initSys 1 []) (by norm_num)
      Relation.ReflTransGen.refl⟩

/-- C7: when a step turns an empty chamber into an occupied one, the kind
occupying after the step equals the kind of the front entry of the ledger
before the step. -/
theorem c7_order_of_opening (s s' : Sys) (k : VKind) (hstep : Step s s')
    (hempty : s.chamber.current_type = none)
    (hocc : s'.chamber.current_type = some k) :
    ∃ f tl, s.chamber.entry_order = f :: tl ∧ f.vtype = k := by
  cases hstep with
  | register e rest hp =>
      simp only [regSucc, registerStep] at hocc
      rw [hempty] at hocc
      cases hocc
  | enterBatch e hq hk hg =>
      simp only [enterBatchSucc, enterBatchStep] at hocc
      injection hocc with hocc
      rcases (canEnterBatch_iff s.chamber e.vtype).mp hg with
        ⟨-, f, tl, hqe, hfk⟩ | ⟨hcur, -⟩
      · exact ⟨f, tl, hqe, by rw [hfk, hocc]⟩
      · rw [hempty] at hcur
        cases hcur
  | enterOnline e hq hk hg =>
      simp only [enterOnlineSucc, enterOnlineStep] at hocc
      injection hocc with hocc
      obtain ⟨-, f, tl, hqe, hfk⟩ := (canEnterOnline_iff s.chamber).mp hg
      exact ⟨f, tl, hqe, by rw [hfk, hocc]⟩
  | departBatch e l1 l2 hin hk =>
      by_cases hz : s.chamber.count - 1 = 0
      · simp only [departBatchSucc,
          departBatchStep_chamber_pos _ _ _ hz] at hocc
        cases hocc
      · simp only [departBatchSucc,
          departBatchStep_chamber_neg _ _ _ hz] at hocc
        rw [hempty] at hocc
        cases hocc
  | departOnline e l1 l2 hin hk =>
      simp only [departOnlineSucc, departOnlineStep] at hocc
      cases hocc

/-- Witness for C7 at the concrete admission of ann into the empty
chamber. -/
theorem c7_order_of_opening_witness :
    Step wSys1 wSys2 ∧ wSys1.chamber.current_type = none ∧
    wSys2.chamber.current_type = some VKind.S ∧
    (∃ f tl, wSys1.chamber.entry_order = f :: tl ∧ f.vtype = VKind.S) := by
  have hstep : Step wSys1 wSys2 :=
    Step.enterBatch wSys1 wEntry (by decide) (Or.inl rfl) (by decide)
  exact ⟨hstep, rfl, rfl,
    c7_order_of_opening wSys1 wSys2 VKind.S hstep rfl rfl⟩

/-- C8: in every reachable lock-free state, waiting[k] equals the number of
ledger entries of kind k, and no visitor currently inside the chamber has a
record in the ledger. -/
theorem c8_ledger_consistency (K : Int) (vs : List (String × VKind))
    (s : Sys) (hK : 1 ≤ K) (hr : Reachable K vs s) :
    (∀ k, s.chamber.waiting k = (kindCount s.chamber.entry_order k : Int)) ∧
    (∀ e, e ∈ s.inside → e ∉ s.chamber.entry_order) := by
  obtain ⟨hinv, hKeq, hperm⟩ := reach_fullInv K vs s hK hr
  refine ⟨hinv.waiting_eq, ?_⟩
  intro e hi hq
  have hfi : FullInv K vs s := ⟨hinv, hKeq, hperm⟩
  have hn := fullInv_idx_nodup hfi
  have heq : allEntries s =
      s.chamber.entry_order ++ (s.inside ++ (s.finished ++ s.pending)) := by
    simp [allEntries]
  rw [heq] at hn
  exact nodup_map_append_disjoint Entry.idx _ _ hn hq
    (List.mem_append_left _ hi) rfl

/-- Witness for C8 at the initial state of a run with one pending Admin. -/
theorem c8_ledger_consistency_witness :
    (1 : Int) ≤ 2 ∧
    (∀ k, (initSys 2 [("dan", VKind.A)]).chamber.waiting k =
      (kindCount (initSys 2 [("dan", VKind.A)]).chamber.entry_order k : Int)) ∧
    (∀ e, e ∈ (initSys 2 [("dan", VKind.A)]).inside →
      e ∉ (initSys 2 [("dan", VKind.A)]).chamber.entry_order) :=
  ⟨by norm_num,
    c8_ledger_consistency 2 [("dan", VKind.A)] _ (by norm_num)
      Relation.ReflTransGen.refl⟩

/-- C6: evaluation of the departure regions against the claimed
postcondition.  A batch departure does decrement the count, log LEFT with
the new count and clear the occupying kind when the count reaches 0, and
an Online departure does set count to 0, clear the occupying kind and log
ENDED; but the claimed broadcast never happens: the departing thread
deadlocks (blocked = true) re-acquiring the held non-reentrant lock inside
with chamber.cond[t] before the first notify_all exactly when some kind
has a positive waiting counter, i.e. precisely when the claimed wake would
be non-vacuous. -/
theorem c6_departure_deadlock (c : ChamberState) (name : String)
    (k : VKind) :
    (departBatchStep c name k).chamber.count = c.count - 1 ∧
    (departBatchStep c name k).event = Event.left name k (c.count - 1) ∧
    (departBatchStep c name k).chamber.current_type =
      (if c.count - 1 = 0 then none else c.current_type) ∧
    ((departBatchStep c name k).blocked = true ↔
      (c.count - 1 = 0 ∧ ∃ t, 0 < c.waiting t)) ∧
    (departOnlineStep c name).chamber.count = 0 ∧
    (departOnlineStep c name).chamber.current_type = none ∧
    (departOnlineStep c name).event = Event.ended name ∧
    ((departOnlineStep c name).blocked = true ↔ ∃ t, 0 < c.waiting t) := by
  refine ⟨?_, departBatchStep_event_eq c name k, ?_,
    departBatchStep_blocked_iff c name k, rfl, rfl, rfl,
    departOnlineStep_blocked_iff c name⟩
  · by_cases hz : c.count - 1 = 0
    · rw [departBatchStep_chamber_pos c name k hz]
    · rw [departBatchStep_chamber_neg c name k hz]
  · by_cases hz : c.count - 1 = 0
    · rw [departBatchStep_chamber_pos c name k hz]
      simp [hz]
    · rw [departBatchStep_chamber_neg c name k hz]
      simp [hz]

/-- Witness for C6 at a concrete chamber holding one Student with one
waiting Admin: a departure there is a failing input, it deadlocks. -/
theorem c6_departure_deadlock_witness :
    (departBatchStep wChamber6 "ann" VKind.S).chamber.count =
      wChamber6.count - 1 ∧
    (departBatchStep wChamber6 "ann" VKind.S).event =
      Event.left "ann" VKind.S (wChamber6.count - 1) ∧
    (departBatchStep wChamber6 "ann" VKind.S).chamber.current_type =
      (if wChamber6.count - 1 = 0 then none else wChamber6.current_type) ∧
    ((departBatchStep wChamber6 "ann" VKind.S).blocked = true ↔
      (wChamber6.count - 1 = 0 ∧ ∃ t, 0 < wChamber6.waiting t)) ∧
    (departOnlineStep wChamber6 "ann").chamber.count = 0 ∧
    (departOnlineStep wChamber6 "ann").chamber.current_type = none ∧
    (departOnlineStep wChamber6 "ann").event = Event.ended "ann" ∧
    ((departOnlineStep wChamber6 "ann").blocked = true ↔
      ∃ t, 0 < wChamber6.waiting t) ∧
    (departBatchStep wChamber6 "ann" VKind.S).blocked = true ∧
    (departBatchStep wChamber6b "ann" VKind.S).blocked = false :=
  ⟨(c6_departure_deadlock wChamber6 "ann" VKind.S).1,
    (c6_departure_deadlock wChamber6 "ann" VKind.S).2.1,
    (c6_departure_deadlock wChamber6 "ann" VKind.S).2.2.1,
    (c6_departure_deadlock wChamber6 "ann" VKind.S).2.2.2.1,
    (c6_departure_deadlock wChamber6 "ann" VKind.S).2.2.2.2.1,
    (c6_departure_deadlock wChamber6 "ann" VKind.S).2.2.2.2.2.1,
    (c6_departure_deadlock wChamber6 "ann" VKind.S).2.2.2.2.2.2.1,
    (c6_departure_deadlock wChamber6 "ann" VKind.S).2.2.2.2.2.2.2,
    by decide, by decide⟩

/-- C3: the round-trip claim fails on the code.  With capacity 1 and the
two Students sam and tom, after both registrations and the entry of sam (a
faithful prefix of lock regions) tom is still queued with waiting[S] = 1.
The departure region of sam, the next region the program executes, logs
LEFT 0 and then blocks forever (blocked = true) re-acquiring the held
non-reentrant lock inside with chamber.cond[t] before any notify_all, so
tom never reaches ENTERED, the run never finishes, and the event counts
stay at 1 ENTERED/STARTED and 0 LEFT/ENDED for 2 registered visitors. -/
theorem c3_deadlock_two_students :
    Reachable 1 [("sam", VKind.S), ("tom", VKind.S)] dSys3 ∧
    dSys3.inside = [dEntry1] ∧
    dSys3.chamber.entry_order = [dEntry2] ∧
    0 < dSys3.chamber.waiting VKind.S ∧
    (departBatchStep dSys3.chamber "sam" VKind.S).blocked = true ∧
    (departBatchStep dSys3.chamber "sam" VKind.S).event =
      Event.left "sam" VKind.S 0 ∧
    (dSys3.events.filter isAdmitEvent).length = 1 ∧
    (dSys3.events.filter isDepartEvent).length = 0 := by
  refine ⟨?_, by decide, by decide, by decide, by decide, by decide,
    by decide, by decide⟩
  have h1 : Step dSys0 dSys1 :=
    Step.register dSys0 dEntry1 [dEntry2] (by decide)
  have h2 : Step dSys1 dSys2 :=
    Step.register dSys1 dEntry2 [] (by decide)
  have h3 : Step dSys2 dSys3 :=
    Step.enterBatch dSys2 dEntry1 (by decide) (Or.inl rfl) (by decide)
  exact Relation.ReflTransGen.tail
    (Relation.ReflTransGen.tail
      (Relation.ReflTransGen.tail Relation.ReflTransGen.refl h1) h2) h3

/-- C4: the driver performs no validation of the capacity: with K = 0 the
run is not rejected, the visitor task is spawned, and the full simulation
runs, admitting the visitor and emitting its events.  The specification
requires a configuration with K at most 0 to be rejected before any
visitor task starts; the code contains no such check. -/
theorem c4_capacity_not_validated :
    run_from_file 0 ["amy S"] = Except.ok (0, [uEntry]) ∧
    Reachable 0 [("amy", VKind.S)] uSys3 ∧
    Event.entered "amy" VKind.S 1 ∈ uSys3.events ∧
    uSys3.finished = [uEntry] := by
  refine ⟨by rfl, ?_, by decide, by decide⟩
  have hstep1 : Step uSys0 uSys1 :=
    Step.register uSys0 uEntry [] (by decide)
  have hstep2 : Step uSys1 uSys2 :=
    Step.enterBatch uSys1 uEntry (by decide) (Or.inl rfl) (by decide)
  have hstep3 : Step uSys2 uSys3 :=
    Step.departBatch uSys2 uEntry [] [] (by decide) (Or.inl rfl)
  exact Relation.ReflTransGen.tail
    (Relation.ReflTransGen.tail
      (Relation.ReflTransGen.tail Relation.ReflTransGen.refl hstep1)
      hstep2)
    hstep3

/-! ### Per-line parsing lemmas -/

theorem parseLine_blank (ln : String) (h0 : pyStrip ln.data = []) :
    parseLine ln = Except.ok none := by
  simp [parseLine, h0]

theorem parseLine_comment (ln : String)
    (h0 : startsWithHash (pyStrip ln.data) = true) :
    parseLine ln = Except.ok none := by
  by_cases hb : pyStrip ln.data = [] <;> simp [parseLine, hb, h0]

theorem parseLine_some_delay (ln : String) (it : String × VKind × ℚ)
    (h : parseLine ln = Except.ok (some it)) : it.2.2 = 5 / 100 := by
  by_cases hb : pyStrip ln.data = []
  · simp [parseLine, hb] at h
  · by_cases hc : startsWithHash (pyStrip ln.data) = true
    · simp [parseLine, hb, hc] at h
    · rcases hp : lineParts ln with _ | ⟨name, rest⟩
      · simp [parseLine, hb, hc, hp] at h
      · rcases rest with _ | ⟨tok, rest2⟩
        · simp [parseLine, hb, hc, hp] at h
        · cases hk : parseKind tok with
          | ok k =>
              simp [parseLine, hb, hc, hp, hk] at h
              rw [← h]
          | error m => simp [parseLine, hb, hc, hp, hk] at h

theorem parseLine_short (ln : String) (hb : ¬ pyStrip ln.data = [])
    (hc : ¬ startsWithHash (pyStrip ln.data) = true)
    (hlen : (lineParts ln).length < 2) : parseLine ln = Except.ok none := by
  rcases hp : lineParts ln with _ | ⟨a, rest⟩
  · simp [parseLine, hb, hc, hp]
  · rcases rest with _ | ⟨b, rest2⟩
    · simp [parseLine, hb, hc, hp]
    · rw [hp] at hlen
      simp at hlen
      omega

theorem read_meeting_info_delay :
    ∀ (lines : List String) (items : List (String × VKind × ℚ)),
      read_meeting_info lines = Except.ok items →
      ∀ it ∈ items, it.2.2 = 5 / 100 := by
  intro lines
  induction lines with
  | nil =>
      intro items h it hit
      simp [read_meeting_info] at h
      rw [h] at hit
      cases hit
  | cons ln rest ih =>
      intro items h it hit
      cases hpl : parseLine ln with
      | error e => simp [read_meeting_info, hpl] at h
      | ok o =>
          cases o with
          | none =>
              simp [read_meeting_info, hpl] at h
              exact ih items h it hit
          | some itm =>
              cases hrec : read_meeting_info rest with
              | error e => simp [read_meeting_info, hpl, hrec] at h
              | ok items2 =>
                  simp [read_meeting_info, hpl, hrec] at h
                  rw [← h] at hit
                  rcases List.mem_cons.mp hit with hit | hit
                  · rw [hit]
                    exact parseLine_some_delay ln itm hpl
                  · exact ih items2 hrec it hit

/-- C5 counterexample: the line (bob, xS) carries the kind token xS, whose
uppercase form is none of the letters S, A, O, yet read_meeting_info
accepts it as a Student via the last-character fallback instead of raising
a configuration error as the specification demands for malformed
tokens. -/
theorem c5_counterexample :
    read_meeting_info ["bob xS"] =
      Except.ok [("bob", VKind.S, 5 / 100)] ∧
    pyUpper "xS" ≠ "S" ∧ pyUpper "xS" ≠ "A" ∧ pyUpper "xS" ≠ "O" := by
  refine ⟨by rfl, by decide, by decide, by decide⟩

/-- C5 amended: for every non-blank non-comment line with a name and a kind
token, the uppercased token is matched against S, A, O and, failing that,
its last character is matched; a fatal configuration error is raised
exactly when both checks fail.  Blank lines and lines starting with the
hash sign are ignored. -/
theorem c5_kind_token_handling (ln name tok : String) (rest : List String)
    (hnc : ¬ startsWithHash (pyStrip ln.data) = true)
    (hp : lineParts ln = name :: tok :: rest) :
    ((∃ msg, parseLine ln = Except.error msg) ↔
      (kindOfLetter (pyUpper tok) = none ∧
        kindOfLetter (lastCharStr (pyUpper tok)) = none)) ∧
    (∀ ln2, pyStrip ln2.data = [] → parseLine ln2 = Except.ok none) ∧
    (∀ ln2, startsWithHash (pyStrip ln2.data) = true →
      parseLine ln2 = Except.ok none) := by
  have hblank : ¬ pyStrip ln.data = [] := by
    intro h0
    have hnil : lineParts ln = [] := by rw [lineParts, h0]; rfl
    rw [hnil] at hp
    cases hp
  refine ⟨?_, parseLine_blank, parseLine_comment⟩
  rcases hk1 : kindOfLetter (pyUpper tok) with _ | k
  · rcases hk2 : kindOfLetter (lastCharStr (pyUpper tok)) with _ | k2
    · simp [parseLine, parseKind, hblank, hnc, hp, hk1, hk2]
    · simp [parseLine, parseKind, hblank, hnc, hp, hk1, hk2]
  · simp [parseLine, parseKind, hblank, hnc, hp, hk1]

/-- Witness for C5 at the concrete line (bob, xS). -/
theorem c5_kind_token_handling_witness :
    ((∃ msg, parseLine "bob xS" = Except.error msg) ↔
      (kindOfLetter (pyUpper "xS") = none ∧
        kindOfLetter (lastCharStr (pyUpper "xS")) = none)) ∧
    (∀ ln2, pyStrip ln2.data = [] → parseLine ln2 = Except.ok none) ∧
    (∀ ln2, startsWithHash (pyStrip ln2.data) = true →
      parseLine ln2 = Except.ok none) :=
  c5_kind_token_handling "bob xS" "bob" "xS" [] (by decide) (by decide)

/-- C10: every visitor returned by read_meeting_info carries the fixed
inter-arrival delay 0.05, and a non-blank non-comment line with fewer than
two whitespace-separated fields is silently skipped, producing no item and
no error. -/
theorem c10_read_meeting_info_behaviour (lines : List String)
    (items : List (String × VKind × ℚ))
    (hok : read_meeting_info lines = Except.ok items) :
    (∀ it ∈ items, it.2.2 = 5 / 100) ∧
    (∀ ln, ¬ pyStrip ln.data = [] →
      ¬ startsWithHash (pyStrip ln.data) = true →
      (lineParts ln).length < 2 → parseLine ln = Except.ok none) :=
  ⟨read_meeting_info_delay lines items hok,
    fun ln hb hc hl => parseLine_short ln hb hc hl⟩

/-- Witness for C10 at the one-field line solo, which is skipped. -/
theorem c10_read_meeting_info_behaviour_witness :
    read_meeting_info ["solo"] = Except.ok [] ∧
    ((∀ it ∈ ([] : List (String × VKind × ℚ)), it.2.2 = (5 : ℚ) / 100) ∧
      (∀ ln, ¬ pyStrip ln.data = [] →
        ¬ startsWithHash (pyStrip ln.data) = true →
        (lineParts ln).length < 2 → parseLine ln = Except.ok none)) :=
  ⟨rfl, c10_read_meeting_info_behaviour ["solo"] [] rfl⟩
